import Mathlib

/-!
Verification of the classification-and-bucketing pipeline and the
frequency-analysis engine of the youtube-comment-nlp repository
(src/preprocess.py and src/analyze_basic.py).

Python strings are modelled as `List Char`; the Unicode regex classes
`\w` and `\s` are restricted to the ASCII plus Turkish repertoire that the
source's own explicit character classes name; floats (detector confidences,
thresholds, ratios) are modelled as rationals.  External capabilities
(the lingua detector, the Snowball stemmers) are injected functions, as the
spec's design notes prescribe for them.
-/

set_option maxHeartbeats 1000000

namespace YTNLP

/-- Python strings modelled as lists of characters. -/
abbrev Str := List Char

/-- Model of the whitespace class (`\s`, `str.strip`, `str.split`),
restricted to the ASCII whitespace characters. -/
def isSpaceChar (c : Char) : Bool :=
  c = ' ' || c = '\t' || c = '\n' || c = '\r' || c = '\x0b' || c = '\x0c'

/-- The six lowercase Turkish special letters named in the source regexes. -/
def turkishLower : List Char := ['ç', 'ğ', 'ı', 'ö', 'ş', 'ü']

/-- The six uppercase Turkish special letters named in the source regexes. -/
def turkishUpper : List Char := ['Ç', 'Ğ', 'İ', 'Ö', 'Ş', 'Ü']

/-- Character class of the token regex `[a-zA-ZçğıöşüÇĞİÖŞÜ0-9]` from
`tokenize` in src/preprocess.py (an identical copy is in
src/analyze_basic.py). -/
def isTokenChar (c : Char) : Bool :=
  (97 ≤ c.toNat && c.toNat ≤ 122) || (65 ≤ c.toNat && c.toNat ≤ 90) ||
  (48 ≤ c.toNat && c.toNat ≤ 57) || turkishLower.contains c || turkishUpper.contains c

/-- Character class of `[A-Za-zÇĞİÖŞÜçğıöşü]`, the alphabetic characters
counted by `is_low_signal`. -/
def isAlphaTR (c : Char) : Bool :=
  (97 ≤ c.toNat && c.toNat ≤ 122) || (65 ≤ c.toNat && c.toNat ≤ 90) ||
  turkishLower.contains c || turkishUpper.contains c

/-- Model of the regex class `\w` (word characters), restricted to the
Latin-plus-Turkish repertoire relevant to this pipeline: ASCII
alphanumerics, underscore, and the Turkish special letters. -/
def isWordChar (c : Char) : Bool := isTokenChar c || c = '_'

/-- Maximal runs of characters satisfying `p`, in order: the model of
`re.findall("[class]+", s)`.  `cur` carries the current run in reverse. -/
def runsAcc (p : Char → Bool) (cur : Str) : Str → List Str
  | [] => if cur.isEmpty then [] else [cur.reverse]
  | c :: cs =>
    if p c then runsAcc p (c :: cur) cs
    else if cur.isEmpty then runsAcc p [] cs
    else cur.reverse :: runsAcc p [] cs

/-- `re.findall("[class]+", s)` for the character class decided by `p`. -/
def runsP (p : Char → Bool) (s : Str) : List Str := runsAcc p [] s

/-- Model of Python `str.strip()`. -/
def pyStrip (s : Str) : Str :=
  ((s.dropWhile isSpaceChar).reverse.dropWhile isSpaceChar).reverse

/-- Model of `re.sub(r"\s+", " ", s)`: every maximal whitespace run becomes
a single space (a whitespace character is dropped when the next character is
also whitespace, otherwise emitted as a single `' '`). -/
def collapseWs : Str → Str
  | [] => []
  | c :: cs =>
    if isSpaceChar c then
      match cs with
      | d :: _ => if isSpaceChar d then collapseWs cs else ' ' :: collapseWs cs
      | [] => [' ']
    else c :: collapseWs cs

/-- The idiom `re.sub(r"\s+", " ", s).strip()` used by `clean_text`. -/
def squeeze (s : Str) : Str := pyStrip (collapseWs s)

/-- Emission of a maximal run of `k` copies of `c` under
`re.sub(r"(.)\1{3,}", r"\1\1", s)`: runs of four or more collapse to two
copies, shorter runs are unchanged. -/
def emitRun (c : Char) (k : ℕ) : Str :=
  if 4 ≤ k then [c, c] else List.replicate k c

/-- Scanner for `normalize_repeated_chars`: `c` has been seen `k` times. -/
def nrcGo (c : Char) (k : ℕ) : Str → Str
  | [] => emitRun c k
  | d :: ds => if d = c then nrcGo c (k + 1) ds else emitRun c k ++ nrcGo d 1 ds

/-- Model of `normalize_repeated_chars` from src/preprocess.py:
`re.sub(r"(.)\1{3,}", r"\1\1", s)`. -/
def normalize_repeated_chars : Str → Str
  | [] => []
  | c :: cs => nrcGo c 1 cs

/-- Model of Python `html.unescape`, restricted to the most common named and
numeric entities; all other text passes through unchanged. -/
def htmlUnescape : Str → Str
  | '&' :: 'a' :: 'm' :: 'p' :: ';' :: r => '&' :: htmlUnescape r
  | '&' :: 'l' :: 't' :: ';' :: r => '<' :: htmlUnescape r
  | '&' :: 'g' :: 't' :: ';' :: r => '>' :: htmlUnescape r
  | '&' :: 'q' :: 'u' :: 'o' :: 't' :: ';' :: r => '"' :: htmlUnescape r
  | '&' :: 'a' :: 'p' :: 'o' :: 's' :: ';' :: r => Char.ofNat 39 :: htmlUnescape r
  | '&' :: '#' :: '3' :: '9' :: ';' :: r => Char.ofNat 39 :: htmlUnescape r
  | c :: r => c :: htmlUnescape r
  | [] => []

/-- Length of the regex match `http\S+|www\.\S+` at the head of `s`
(`none` when neither alternative matches here); the left alternative is
tried first, as in the regex engine. -/
def urlMatchLen : Str → Option ℕ
  | 'h' :: 't' :: 't' :: 'p' :: rest =>
    let run := rest.takeWhile (fun c => !isSpaceChar c)
    if run.isEmpty then none else some (4 + run.length)
  | 'w' :: 'w' :: 'w' :: '.' :: rest =>
    let run := rest.takeWhile (fun c => !isSpaceChar c)
    if run.isEmpty then none else some (4 + run.length)
  | _ => none

/-- Length of the regex match `@\w+` at the head of `s`. -/
def mentionMatchLen : Str → Option ℕ
  | '@' :: rest =>
    let run := rest.takeWhile isWordChar
    if run.isEmpty then none else some (1 + run.length)
  | _ => none

/-- Generic model of `re.sub(pattern, " ", s)` for a pattern whose match
length at a position is decided by `matchLen`: scan left to right, replace
each leftmost match by a single space, continue after it.  The fuel is the
string length; each step consumes at least one character, so fuel never runs
out when started with `s.length`. -/
def subMatchF (matchLen : Str → Option ℕ) : ℕ → Str → Str
  | 0, s => s
  | _ + 1, [] => []
  | f + 1, c :: cs =>
    match matchLen (c :: cs) with
    | some n => ' ' :: subMatchF matchLen f ((c :: cs).drop n)
    | none => c :: subMatchF matchLen f cs

/-- Model of `re.sub(r"http\S+|www\.\S+", " ", s)`. -/
def stripUrls (s : Str) : Str := subMatchF urlMatchLen s.length s

/-- Model of `re.sub(r"@\w+", " ", s)`. -/
def stripMentions (s : Str) : Str := subMatchF mentionMatchLen s.length s

/-- Model of Python `str.lower()` restricted to ASCII and the Turkish
special letters; as in Python, `'İ'` lowercases to `'i'` followed by the
combining dot above (U+0307) and `'I'` lowercases to plain `'i'` (the
dotted/dotless-I behaviour the spec's design notes flag). -/
def lowerChar (c : Char) : Str :=
  if c = 'Ç' then ['ç'] else if c = 'Ğ' then ['ğ']
  else if c = 'İ' then ['i', '̇'] else if c = 'Ö' then ['ö']
  else if c = 'Ş' then ['ş'] else if c = 'Ü' then ['ü']
  else if 65 ≤ c.toNat && c.toNat ≤ 90 then [Char.ofNat (c.toNat + 32)]
  else [c]

/-- Python `s.lower()` over a whole string. -/
def pyLower (s : Str) : Str := s.flatMap lowerChar

/-- Model of `re.sub(r"[^\w\sçğıöşü]", " ", s)`. -/
def stripPunct (s : Str) : Str :=
  s.map (fun c =>
    if isWordChar c || isSpaceChar c || turkishLower.contains c then c else ' ')

/-- Model of `tokenize` from src/preprocess.py (and the identical copy in
src/analyze_basic.py): `re.findall(r"[a-zA-ZçğıöşüÇĞİÖŞÜ0-9]+", text.lower())`. -/
def tokenize (s : Str) : List Str := runsP isTokenChar (pyLower s)

/-- The Turkish stop-word set `TR_STOP` from src/preprocess.py. -/
def TR_STOP : List Str :=
  (["ve", "ile", "ama", "fakat", "çünkü", "çok", "bir", "bu", "şu", "o", "da", "de",
    "mi", "mı", "mu", "mü", "için", "gibi", "daha", "en", "şey", "ben", "sen", "biz",
    "siz", "onlar", "var", "yok", "olan", "olarak", "ya", "ki"]).map String.toList

/-- The English stop-word set `EN_STOP` from src/preprocess.py. -/
def EN_STOP : List Str :=
  (["the", "a", "an", "and", "or", "but", "because", "so", "to", "of", "in", "on",
    "for", "with", "is", "are", "was", "were", "be", "been", "it", "this", "that",
    "i", "you", "we", "they", "my", "your", "our", "their"]).map String.toList

/-- Model of `unidecode` restricted to the characters that can occur in the
pipeline's tokens: the Turkish special letters transliterate to their base
Latin letter, everything else is unchanged. -/
def uniChar (c : Char) : Char :=
  if c = 'ç' then 'c' else if c = 'ğ' then 'g' else if c = 'ı' then 'i'
  else if c = 'ö' then 'o' else if c = 'ş' then 's' else if c = 'ü' then 'u'
  else if c = 'Ç' then 'C' else if c = 'Ğ' then 'G' else if c = 'İ' then 'I'
  else if c = 'Ö' then 'O' else if c = 'Ş' then 'S' else if c = 'Ü' then 'U'
  else c

/-- `unidecode` over a whole token. -/
def unidecodeStr (s : Str) : Str := s.map uniChar

/-- Model of `maybe_stem`; the Snowball stemmer is an injected capability
(per the spec's design notes), represented by `stem`, and `enable` is the
conjunction `enable_stem and HAS_STEM` computed at the entry point. -/
def maybe_stem (stem : Str → Str) (tokens : List Str) (enable : Bool) : List Str :=
  if enable then tokens.map stem else tokens

/-- Steps of `clean_text` before tokenization: HTML unescaping, newline
replacement, whitespace squeeze, elongation collapse, URL and mention
stripping, `#` removal, lowercasing, punctuation removal and a final
whitespace squeeze.  `KEEP_EMOJIS` is `True` in the source, so no emoji
stripping occurs. -/
def preClean (text : Str) : Str :=
  let t := htmlUnescape text
  let t := t.map (fun c => if c = '\n' || c = '\r' then ' ' else c)
  let t := squeeze t
  let t := normalize_repeated_chars t
  let t := stripUrls t
  let t := stripMentions t
  let t := t.filter (fun c => c != '#')
  let t := pyLower t
  let t := stripPunct t
  squeeze t

/-- Model of `clean_text` from src/preprocess.py. -/
def clean_text (stemTr stemEn : Str → Str) (text : Str) (bucket : String)
    (enable_stem : Bool) : Str :=
  let tokens := tokenize (preClean text)
  let tokens :=
    if bucket = "tr" then
      maybe_stem stemTr (tokens.filter (fun w => !decide (w ∈ TR_STOP))) enable_stem
    else if bucket = "en" then
      maybe_stem stemEn
        ((tokens.map unidecodeStr).filter (fun w => !decide (w ∈ EN_STOP))) enable_stem
    else tokens
  List.intercalate [' '] tokens

/-- `MIN_ALPHA_CHARS` from src/preprocess.py. -/
def MIN_ALPHA_CHARS : ℕ := 8

/-- `MIN_WORDS` from src/preprocess.py. -/
def MIN_WORDS : ℕ := 2

/-- `ANALYZE_THRESHOLD` from src/preprocess.py. -/
def ANALYZE_THRESHOLD : ℚ := 20 / 100

/-- Word tokens of a text: `re.findall(r"\w+", t)`. -/
def wordRuns (s : Str) : List Str := runsP isWordChar s

/-- Count of alphabetic characters:
`len(re.findall(r"[A-Za-zÇĞİÖŞÜçğıöşü]", t))`. -/
def alphaCount (s : Str) : ℕ := s.countP isAlphaTR

/-- Model of `is_low_signal` from src/preprocess.py. -/
def is_low_signal (text : Str) : Bool :=
  if text.isEmpty then true
  else
    let t := pyStrip text
    if (wordRuns t).length < MIN_WORDS then true
    else if alphaCount t < MIN_ALPHA_CHARS then true
    else false

/-- The closed set of languages the lingua detector is built from in
`process_file`. -/
inductive Language where
  | TURKISH | ENGLISH | GERMAN | FRENCH | SPANISH | ITALIAN | PORTUGUESE
  | RUSSIAN | ARABIC | JAPANESE | KOREAN | CHINESE
deriving DecidableEq

/-- `LANG_MAP` from src/preprocess.py: the primary languages and their
two-letter codes. -/
def LANG_MAP : Language → Option String
  | Language.TURKISH => some "tr"
  | Language.ENGLISH => some "en"
  | _ => none

/-- Model of `detect_language` from src/preprocess.py.  The lingua detector
is an injected capability returning confidence-ranked candidates (best
first); confidences are modelled as rationals. -/
def detect_language (detector : Str → List (Language × ℚ)) (text : Str) : String :=
  if is_low_signal text then "unknown"
  else
    match detector text with
    | [] => "unknown"
    | top :: _ =>
      if top.2 < 35 / 100 then "unknown" else (LANG_MAP top.1).getD "other"

/-- Model of `decide_analyze_langs` from src/preprocess.py.  The input
distribution is an association list (language, count); the `sort_values`
reordering in the source is omitted because the function returns a set and
ordering does not affect membership. -/
def decide_analyze_langs (lang_counts : List (String × ℕ)) (threshold : ℚ) :
    List String :=
  let total : ℕ := (lang_counts.map Prod.snd).sum
  if total = 0 then []
  else
    (lang_counts.filter (fun p =>
      !decide (p.1 = "unknown" ∨ p.1 = "other") &&
      decide (threshold ≤ (p.2 : ℚ) / (total : ℚ)))).map Prod.fst

/-- Model of the local function `bucket` in `process_file`. -/
def bucket (analyze_langs : List String) (lang : String) : String :=
  if lang = "unknown" then "unknown"
  else if lang ∈ analyze_langs then lang
  else "others"

/-- Model of `pandas.Series.value_counts()` restricted to what the pipeline
uses: each distinct value paired with its number of occurrences. -/
def valueCounts (l : List String) : List (String × ℕ) :=
  l.dedup.map (fun k => (k, l.count k))

/-- A raw comment as produced by the acquisition connector (spec §3). -/
structure RawComment where
  comment_id : String
  parent_id : Option String
  author : String
  like_count : ℤ
  published_at : String
  text : Str
deriving DecidableEq

/-- A raw comment enriched with its detected language (the `lang` column). -/
structure ClassifiedComment where
  raw : RawComment
  lang : String
deriving DecidableEq

/-- A classified comment enriched with its bucket (the `bucket` column). -/
structure BucketedComment where
  cls : ClassifiedComment
  bucket : String
deriving DecidableEq

/-- A bucketed comment enriched with `clean_text`, `char_count` and
`word_count`. -/
structure NormalizedComment where
  bkt : BucketedComment
  clean_text : Str
  char_count : ℕ
  word_count : ℕ
deriving DecidableEq

/-- The per-record classification pass of `process_file`:
`df["lang"] = df["text"].apply(detect_language)`. -/
def classifyAll (d : Str → List (Language × ℚ)) (corpus : List RawComment) :
    List ClassifiedComment :=
  corpus.map (fun r => { raw := r, lang := detect_language d r.text })

/-- `lang_counts = df["lang"].value_counts()`. -/
def langCountsOf (d : Str → List (Language × ℚ)) (corpus : List RawComment) :
    List (String × ℕ) :=
  valueCounts ((classifyAll d corpus).map ClassifiedComment.lang)

/-- `analyze_langs = decide_analyze_langs(lang_counts, threshold)`. -/
def planOf (d : Str → List (Language × ℚ)) (threshold : ℚ)
    (corpus : List RawComment) : List String :=
  decide_analyze_langs (langCountsOf d corpus) threshold

/-- `df["bucket"] = df["lang"].apply(bucket)`. -/
def bucketAll (d : Str → List (Language × ℚ)) (threshold : ℚ)
    (corpus : List RawComment) : List BucketedComment :=
  (classifyAll d corpus).map
    (fun c => { cls := c, bucket := bucket (planOf d threshold corpus) c.lang })

/-- Model of Python `str.split()` (split on whitespace runs). -/
def pySplit (s : Str) : List Str := runsP (fun c => !isSpaceChar c) s

/-- The normalization pass of `process_file`: `clean_text`, `char_count`
and `word_count` columns (`len(x.split()) if x else 0`). -/
def normalizeAll (d : Str → List (Language × ℚ)) (threshold : ℚ)
    (stemTr stemEn : Str → Str) (enable_stem : Bool)
    (corpus : List RawComment) : List NormalizedComment :=
  (bucketAll d threshold corpus).map (fun b =>
    let ct := clean_text stemTr stemEn b.cls.raw.text b.bucket enable_stem
    { bkt := b, clean_text := ct, char_count := ct.length,
      word_count := if ct.isEmpty then 0 else (pySplit ct).length })

/-- Model of `ngrams` from src/analyze_basic.py; Python's `range` is empty
when `len(tokens) - n + 1` is not positive, hence the integer clamp. -/
def ngrams (tokens : List Str) (n : ℕ) : List Str :=
  (List.range ((tokens.length : ℤ) - (n : ℤ) + 1).toNat).map
    (fun i => List.intercalate [' '] ((tokens.drop i).take n))

/-- The flattened per-bucket token stream built in `analyze_one`. -/
def allTokens (texts : List Str) : List Str := (texts.map tokenize).flatten

/-- `vocab = set(all_tokens)`, modelled as deduplication. -/
def vocab (texts : List Str) : List Str := (allTokens texts).dedup

/-- `ttr = (len(vocab) / len(all_tokens)) if all_tokens else 0.0` from
`analyze_one` in src/analyze_basic.py. -/
def typeTokenRatio (texts : List Str) : ℚ :=
  if (allTokens texts).isEmpty then 0
  else ((vocab texts).length : ℚ) / ((allTokens texts).length : ℚ)

/-- The flattened per-bucket bigram stream built in `analyze_one`: bigrams
are generated per record and concatenated, never across records. -/
def allBigrams (texts : List Str) : List Str :=
  (texts.map (fun t => ngrams (tokenize t) 2)).flatten

/-- Decides whether `s` contains a run of four identical consecutive
characters (the pattern rewritten by `normalize_repeated_chars`). -/
def hasQuadRun : Str → Bool
  | [] => false
  | c :: cs => (cs.take 3 = [c, c, c]) || hasQuadRun cs

/-- Does the string start with the letters `http` followed by a
non-whitespace character (the pattern consumed by the URL regex)? -/
def httpHere : Str → Bool
  | 'h' :: 't' :: 't' :: 'p' :: e :: _ => !isSpaceChar e
  | _ => false

/-- Decides whether any suffix of `s` starts with `http` followed by a
non-whitespace character. -/
def hasHttpCont : Str → Bool
  | [] => false
  | c :: cs => httpHere (c :: cs) || hasHttpCont cs

/-- The lowercase token repertoire: the characters that can occur in a
token of `clean_text`'s output (lowercase ASCII letters, digits, and the
lowercase Turkish special letters). -/
def isLowTok (c : Char) : Bool :=
  (97 ≤ c.toNat && c.toNat ≤ 122) || (48 ≤ c.toNat && c.toNat ≤ 57) ||
  turkishLower.contains c

/-- Token lists in canonical cleaned form: non-empty tokens over the
lowercase token repertoire. -/
def cleanToks (ts : List Str) : Prop :=
  ∀ t ∈ ts, t ≠ [] ∧ ∀ c ∈ t, isLowTok c = true

/-- Strings in canonical cleaned form: every character is a lowercase token
character or a space. -/
def cleanStr (s : Str) : Prop := ∀ c ∈ s, isLowTok c = true ∨ c = ' '

/-- A concrete detector for witnesses: everything is English with
confidence 9/10. -/
def exDetector : Str → List (Language × ℚ) := fun _ => [(Language.ENGLISH, 9 / 10)]

/-- A concrete comment text for witnesses. -/
def exText : Str := "hello my good friend".toList

/-- A concrete raw comment for witnesses. -/
def exComment : RawComment :=
  { comment_id := "c1", parent_id := none, author := "alice", like_count := 3,
    published_at := "2024-01-01T00:00:00Z", text := exText }

end YTNLP

namespace YTNLP

/-- C4: `bucket` (the assigner) is total and deterministic: `unknown` maps
to the `unknown` bucket unconditionally, a language in the plan maps to
itself, every other language maps to `others`, and nothing but `unknown`
ever lands in the `unknown` bucket. -/
theorem bucket_spec (plan : List String) (lang : String) :
    bucket plan "unknown" = "unknown" ∧
    (lang ≠ "unknown" → lang ∈ plan → bucket plan lang = lang) ∧
    (lang ≠ "unknown" → lang ∉ plan → bucket plan lang = "others") ∧
    (bucket plan lang = "unknown" → lang = "unknown") := by
  refine ⟨by simp [bucket], ?_, ?_, ?_⟩
  · intro h1 h2; simp [bucket, h1, h2]
  · intro h1 h2; simp [bucket, h1, h2]
  · intro h
    by_cases h1 : lang = "unknown"
    · exact h1
    · exfalso
      by_cases h2 : lang ∈ plan
      · simp [bucket, h1, h2] at h
      · simp [bucket, h1, h2] at h

/-- Witness for `bucket_spec` at a concrete plan and language. -/
theorem bucket_spec_witness :
    bucket ["tr", "en"] "unknown" = "unknown" ∧ bucket ["tr", "en"] "en" = "en" ∧
    bucket ["tr", "en"] "other" = "others" := by
  refine ⟨(bucket_spec ["tr", "en"] "en").1,
    (bucket_spec ["tr", "en"] "en").2.1 (by decide) (by decide),
    (bucket_spec ["tr", "en"] "other").2.2.1 (by decide) (by decide)⟩

/-- C5: for any bucket other than `tr` and `en`, the language-specific
stage of `clean_text` applies no stop-word removal, no transliteration and
no stemming: the token list of the pre-cleaned text passes through
untouched to the rejoin step. -/
theorem clean_text_passthrough (fTr fEn : Str → Str) (text : Str) (b : String)
    (e : Bool) (h1 : b ≠ "tr") (h2 : b ≠ "en") :
    clean_text fTr fEn text b e
      = List.intercalate [' '] (tokenize (preClean text)) := by
  simp [clean_text, h1, h2]

/-- Witness for `clean_text_passthrough` on the `others` bucket. -/
theorem clean_text_passthrough_witness :
    clean_text id id ("Çok güzel video!".toList) "others" true
      = List.intercalate [' '] (tokenize (preClean ("Çok güzel video!".toList))) :=
  clean_text_passthrough id id _ "others" true (by decide) (by decide)

/-- C3: `decide_analyze_langs` returns the empty set on an empty total, and
otherwise a language of the distribution is in the plan iff it is neither
`unknown` nor `other` and its count over the full total (which includes the
`unknown` and `other` counts) reaches the threshold. -/
theorem decide_analyze_langs_spec (counts : List (String × ℕ)) (t : ℚ) :
    ((counts.map Prod.snd).sum = 0 → decide_analyze_langs counts t = []) ∧
    ((counts.map Prod.snd).sum ≠ 0 → ∀ l : String,
      l ∈ decide_analyze_langs counts t ↔
        l ≠ "unknown" ∧ l ≠ "other" ∧
        ∃ c : ℕ, (l, c) ∈ counts ∧
          t ≤ (c : ℚ) / (((counts.map Prod.snd).sum : ℕ) : ℚ)) := by
  constructor
  · intro h; simp [decide_analyze_langs, h]
  · intro h l
    simp only [decide_analyze_langs, if_neg h, List.mem_map, List.mem_filter]
    constructor
    · rintro ⟨⟨l', c⟩, ⟨hmem, hcond⟩, rfl⟩
      simp only [Bool.and_eq_true, Bool.not_eq_true', decide_eq_false_iff_not,
        decide_eq_true_eq, not_or] at hcond
      exact ⟨hcond.1.1, hcond.1.2, c, hmem, hcond.2⟩
    · rintro ⟨h1, h2, c, hmem, hle⟩
      refine ⟨(l, c), ⟨hmem, ?_⟩, rfl⟩
      simp only [Bool.and_eq_true, Bool.not_eq_true', decide_eq_false_iff_not,
        decide_eq_true_eq, not_or]
      exact ⟨⟨h1, h2⟩, hle⟩

/-- Witness for `decide_analyze_langs_spec` on a concrete distribution. -/
theorem decide_analyze_langs_spec_witness :
    "tr" ∈ decide_analyze_langs [("tr", 3), ("en", 1)] (1 / 2) :=
  ((decide_analyze_langs_spec [("tr", 3), ("en", 1)] (1 / 2)).2 (by decide) "tr").mpr
    ⟨by decide, by decide, 3, by simp, by norm_num⟩

/-- C9: the bucket plan is monotone non-increasing in the threshold -
every language planned at the higher threshold is planned at the lower. -/
theorem decide_analyze_langs_antitone (counts : List (String × ℕ)) (t t' : ℚ)
    (h : t ≤ t') (l : String) (hl : l ∈ decide_analyze_langs counts t') :
    l ∈ decide_analyze_langs counts t := by
  by_cases h0 : (counts.map Prod.snd).sum = 0
  · simp [decide_analyze_langs, h0] at hl
  · simp only [decide_analyze_langs, if_neg h0, List.mem_map, List.mem_filter] at hl ⊢
    obtain ⟨p, ⟨hmem, hcond⟩, rfl⟩ := hl
    refine ⟨p, ⟨hmem, ?_⟩, rfl⟩
    simp only [Bool.and_eq_true, decide_eq_true_eq] at hcond ⊢
    exact ⟨hcond.1, le_trans h hcond.2⟩

/-- Witness for `decide_analyze_langs_antitone` at concrete thresholds. -/
theorem decide_analyze_langs_antitone_witness :
    "tr" ∈ decide_analyze_langs [("tr", 3), ("en", 1)] (1 / 4) :=
  decide_analyze_langs_antitone [("tr", 3), ("en", 1)] (1 / 4) (1 / 2)
    (by norm_num) "tr" (by norm_num [decide_analyze_langs]; exact Or.inl ⟨by decide, by decide⟩)

end YTNLP

namespace YTNLP

/-- Joining a two-element token list with single spaces. -/
theorem intercalate_pair (a b : Str) :
    List.intercalate [' '] [a, b] = a ++ ' ' :: b := by
  simp [List.intercalate, List.intersperse]

/-- C7: the Type-Token Ratio of a bucket token stream is between 0 and 1;
it equals vocabulary size over token count when the stream is non-empty,
is exactly 1 when all tokens are distinct (and some exist), and is exactly
0 on the empty stream. -/
theorem typeTokenRatio_spec (texts : List Str) :
    0 ≤ typeTokenRatio texts ∧ typeTokenRatio texts ≤ 1 ∧
    (allTokens texts ≠ [] →
      typeTokenRatio texts
        = ((vocab texts).length : ℚ) / ((allTokens texts).length : ℚ)) ∧
    ((allTokens texts).Nodup → allTokens texts ≠ [] → typeTokenRatio texts = 1) ∧
    (allTokens texts = [] → typeTokenRatio texts = 0) := by
  have hsub : (vocab texts).length ≤ (allTokens texts).length :=
    (List.dedup_sublist (allTokens texts)).length_le
  by_cases he : allTokens texts = []
  · refine ⟨by simp [typeTokenRatio, he], by simp [typeTokenRatio, he], ?_, ?_, ?_⟩
    · intro h; exact absurd he h
    · intro _ h; exact absurd he h
    · intro _; simp [typeTokenRatio, he]
  · have hpos : (0 : ℚ) < ((allTokens texts).length : ℚ) := by
      exact_mod_cast List.length_pos.mpr he
    have hval : typeTokenRatio texts
        = ((vocab texts).length : ℚ) / ((allTokens texts).length : ℚ) := by
      simp [typeTokenRatio, List.isEmpty_iff, he]
    refine ⟨?_, ?_, fun _ => hval, ?_, fun h => absurd h he⟩
    · rw [hval]; positivity
    · rw [hval]
      exact (div_le_one hpos).mpr (by exact_mod_cast hsub)
    · intro hnd _
      have hv : vocab texts = allTokens texts := List.dedup_eq_self.mpr hnd
      rw [hval, hv, div_self (ne_of_gt hpos)]

/-- Witness for `typeTokenRatio_spec`: an all-distinct stream has TTR 1. -/
theorem typeTokenRatio_spec_witness :
    typeTokenRatio [("cok guzel video".toList)] = 1 :=
  (typeTokenRatio_spec [("cok guzel video".toList)]).2.2.2.1 (by decide) (by decide)

/-- C8: bigram generation yields one space-joined bigram per adjacent token
pair, in order; none for streams of zero or one token; bigrams are
generated per record and never span record boundaries; and the scenario
`"cok guzel video"` yields exactly its two adjacent bigrams. -/
theorem ngrams_spec (texts : List Str) (ts : List Str) :
    (ngrams ts 2).length = ts.length - 1 ∧
    (∀ i a b', ts[i]? = some a → ts[i + 1]? = some b' →
      (ngrams ts 2)[i]? = some (a ++ ' ' :: b')) ∧
    (∀ bg ∈ allBigrams texts, ∃ t ∈ texts, bg ∈ ngrams (tokenize t) 2) ∧
    ngrams (tokenize ("cok guzel video".toList)) 2
      = [("cok guzel".toList), ("guzel video".toList)] := by
  refine ⟨?_, ?_, ?_, by decide⟩
  · simp only [ngrams, List.length_map, List.length_range]
    omega
  · intro i a b' ha hb
    obtain ⟨hlt, hb2⟩ := List.getElem?_eq_some_iff.mp hb
    obtain ⟨hlt0, ha2⟩ := List.getElem?_eq_some_iff.mp ha
    have hdrop : ts.drop i = a :: b' :: ts.drop (i + 2) := by
      rw [List.drop_eq_getElem_cons hlt0, List.drop_eq_getElem_cons hlt, ha2, hb2]
    have hik : i < ((ts.length : ℤ) - ((2 : ℕ) : ℤ) + 1).toNat := by omega
    simp only [ngrams, List.getElem?_map, List.getElem?_range hik, Option.map_some',
      hdrop, List.take_succ_cons, List.take_zero]
    rw [intercalate_pair]
  · intro bg hbg
    simp only [allBigrams, List.mem_flatten, List.mem_map] at hbg
    obtain ⟨l, ⟨t, ht, rfl⟩, hl⟩ := hbg
    exact ⟨t, ht, hl⟩

/-- Witness for `ngrams_spec`: the bigram at index 1 of a three-token
stream joins tokens 1 and 2. -/
theorem ngrams_spec_witness :
    (ngrams [("ab".toList), ("cd".toList), ("ef".toList)] 2)[1]?
      = some ("cd ef".toList) :=
  (ngrams_spec [] [("ab".toList), ("cd".toList), ("ef".toList)]).2.1 1
    ("cd".toList) ("ef".toList) (by decide) (by decide)

end YTNLP

namespace YTNLP

/-- A whitespace character is not a word character. -/
theorem space_not_word {c : Char} (h : isSpaceChar c = true) : isWordChar c = false := by
  simp only [isSpaceChar, Bool.or_eq_true, decide_eq_true_eq] at h
  have h6 : c = ' ' ∨ c = '\t' ∨ c = '\n' ∨ c = '\r' ∨ c = '\x0b' ∨ c = '\x0c' := by
    tauto
  rcases h6 with h6|h6|h6|h6|h6|h6 <;> subst h6 <;> decide

/-- A whitespace character is not an alphabetic character. -/
theorem space_not_alpha {c : Char} (h : isSpaceChar c = true) : isAlphaTR c = false := by
  simp only [isSpaceChar, Bool.or_eq_true, decide_eq_true_eq] at h
  have h6 : c = ' ' ∨ c = '\t' ∨ c = '\n' ∨ c = '\r' ∨ c = '\x0b' ∨ c = '\x0c' := by
    tauto
  rcases h6 with h6|h6|h6|h6|h6|h6 <;> subst h6 <;> decide

/-- A trailing block of non-class characters contributes no runs. -/
theorem runsAcc_trail (p : Char → Bool) (trail : Str)
    (h : ∀ c ∈ trail, p c = false) (cur : Str) :
    runsAcc p cur trail = runsAcc p cur [] := by
  induction trail generalizing cur with
  | nil => rfl
  | cons c cs ih =>
    have hc : p c = false := h c (List.mem_cons_self c cs)
    have hcs : ∀ x ∈ cs, p x = false := fun x hx => h x (List.mem_cons_of_mem c hx)
    have hnil : runsAcc p [] cs = [] := by
      rw [ih hcs []]; rfl
    by_cases hcur : cur.isEmpty
    · simp [runsAcc, hc, hcur, hnil]
    · simp [runsAcc, hc, hcur, hnil]

/-- Appending a block of non-class characters does not change the runs. -/
theorem runsAcc_append_trail (p : Char → Bool) (trail : Str)
    (h : ∀ c ∈ trail, p c = false) (l : Str) (cur : Str) :
    runsAcc p cur (l ++ trail) = runsAcc p cur l := by
  induction l generalizing cur with
  | nil => simpa using runsAcc_trail p trail h cur
  | cons c cs ih =>
    by_cases hc : p c
    · simp [runsAcc, hc, ih]
    · by_cases hcur : cur.isEmpty <;> simp [runsAcc, hc, hcur, ih]

/-- A leading block of non-class characters does not change the runs. -/
theorem runsAcc_lead (p : Char → Bool) (lead : Str)
    (h : ∀ c ∈ lead, p c = false) (rest : Str) :
    runsAcc p [] (lead ++ rest) = runsAcc p [] rest := by
  induction lead with
  | nil => rfl
  | cons c cs ih =>
    have hc : p c = false := h c (List.mem_cons_self c cs)
    have hcs : ∀ x ∈ cs, p x = false := fun x hx => h x (List.mem_cons_of_mem c hx)
    simp [runsAcc, hc, ih hcs]

/-- `str.strip()` does not change the word runs of a text. -/
theorem wordRuns_pyStrip (s : Str) : wordRuns (pyStrip s) = wordRuns s := by
  have hlead : ∀ c ∈ s.takeWhile isSpaceChar, isWordChar c = false :=
    fun c hc => space_not_word (List.mem_takeWhile_imp hc)
  have h1 : wordRuns s = runsAcc isWordChar [] (s.dropWhile isSpaceChar) := by
    unfold wordRuns runsP
    conv_lhs => rw [← List.takeWhile_append_dropWhile isSpaceChar s]
    exact runsAcc_lead _ _ hlead _
  set u := s.dropWhile isSpaceChar with hu
  have hu2 : u = (List.dropWhile isSpaceChar u.reverse).reverse
      ++ (List.takeWhile isSpaceChar u.reverse).reverse := by
    have h3 := congrArg List.reverse
      (List.takeWhile_append_dropWhile isSpaceChar u.reverse)
    rw [List.reverse_append, List.reverse_reverse] at h3
    exact h3.symm
  have htrail : ∀ c ∈ (List.takeWhile isSpaceChar u.reverse).reverse,
      isWordChar c = false := by
    intro c hc
    rw [List.mem_reverse] at hc
    exact space_not_word (List.mem_takeWhile_imp hc)
  have h2 : runsAcc isWordChar [] u
      = runsAcc isWordChar [] (List.dropWhile isSpaceChar u.reverse).reverse := by
    conv_lhs => rw [hu2]
    exact runsAcc_append_trail _ _ htrail _ _
  rw [h1, h2]
  rfl

/-- `str.strip()` does not change the alphabetic-character count. -/
theorem alphaCount_pyStrip (s : Str) : alphaCount (pyStrip s) = alphaCount s := by
  have hz1 : List.countP isAlphaTR (List.takeWhile isSpaceChar s) = 0 :=
    List.countP_eq_zero.mpr (fun c hc => by
      simp [space_not_alpha (List.mem_takeWhile_imp hc)])
  have hz2 : List.countP isAlphaTR
      (List.takeWhile isSpaceChar (s.dropWhile isSpaceChar).reverse) = 0 :=
    List.countP_eq_zero.mpr (fun c hc => by
      simp [space_not_alpha (List.mem_takeWhile_imp hc)])
  have e3 := congrArg (List.countP isAlphaTR)
    (List.takeWhile_append_dropWhile isSpaceChar s)
  have e4 := congrArg (List.countP isAlphaTR)
    (List.takeWhile_append_dropWhile isSpaceChar (s.dropWhile isSpaceChar).reverse)
  rw [List.countP_append, hz1] at e3
  rw [List.countP_append, hz2, List.countP_reverse] at e4
  unfold alphaCount pyStrip
  rw [List.countP_reverse]
  omega

/-- The low-signal gate triggers exactly on the word-token and
alphabetic-character thresholds of the raw text. -/
theorem is_low_signal_iff (s : Str) :
    is_low_signal s = true ↔
      (wordRuns s).length < MIN_WORDS ∨ alphaCount s < MIN_ALPHA_CHARS := by
  by_cases hnil : s = []
  · subst hnil
    constructor
    · intro _; left; decide
    · intro _; rfl
  · have hne : s.isEmpty = false := by simpa [List.isEmpty_iff] using hnil
    unfold is_low_signal
    rw [hne]
    simp only [Bool.false_eq_true, if_false, wordRuns_pyStrip, alphaCount_pyStrip]
    split_ifs with h1 h2
    · simp [h1]
    · simp [h2]
    · simp [h1, h2]

end YTNLP

namespace YTNLP

/-- C1: `detect_language` returns `unknown` when the text has fewer than 2
word tokens or fewer than 8 alphabetic characters; past the gate it returns
`unknown` on an empty candidate list or a top confidence below 0.35, the
two-letter code for a top language in the primary subset (Turkish, English),
and `other` for any other confidently detected language. -/
theorem detect_language_spec (d : Str → List (Language × ℚ)) (text : Str) :
    ((wordRuns text).length < MIN_WORDS ∨ alphaCount text < MIN_ALPHA_CHARS →
      detect_language d text = "unknown") ∧
    (¬((wordRuns text).length < MIN_WORDS ∨ alphaCount text < MIN_ALPHA_CHARS) →
      (d text = [] → detect_language d text = "unknown") ∧
      ∀ top rest, d text = top :: rest →
        (top.2 < 35 / 100 → detect_language d text = "unknown") ∧
        (35 / 100 ≤ top.2 →
          (top.1 = Language.TURKISH → detect_language d text = "tr") ∧
          (top.1 = Language.ENGLISH → detect_language d text = "en") ∧
          (top.1 ≠ Language.TURKISH → top.1 ≠ Language.ENGLISH →
            detect_language d text = "other"))) := by
  constructor
  · intro h
    have hl : is_low_signal text = true := (is_low_signal_iff text).mpr h
    simp [detect_language, hl]
  · intro h
    have hl : is_low_signal text = false := by
      by_cases hb : is_low_signal text
      · exact absurd ((is_low_signal_iff text).mp hb) h
      · simpa using hb
    constructor
    · intro hd
      simp [detect_language, hl, hd]
    · intro top rest hd
      constructor
      · intro hc
        simp [detect_language, hl, hd, hc]
      · intro hc
        have hc' : ¬(top.2 < 35 / 100) := not_lt.mpr hc
        refine ⟨?_, ?_, ?_⟩
        · intro ht; simp [detect_language, hl, hd, hc', ht, LANG_MAP]
        · intro ht; simp [detect_language, hl, hd, hc', ht, LANG_MAP]
        · intro ht he
          have : LANG_MAP top.1 = none := by
            cases h1 : top.1 <;> simp [LANG_MAP] <;> simp_all
          simp [detect_language, hl, hd, hc', this]

/-- Witness for `detect_language_spec`: a confidently detected English text
maps to `en`. -/
theorem detect_language_spec_witness :
    detect_language (fun _ => [(Language.ENGLISH, 9 / 10)])
      ("hello my good friend".toList) = "en" :=
  (((detect_language_spec (fun _ => [(Language.ENGLISH, 9 / 10)])
      ("hello my good friend".toList)).2 (by decide)).2
    (Language.ENGLISH, 9 / 10) [] rfl).2 (by norm_num) |>.2.1 rfl

end YTNLP

namespace YTNLP

/-- Mapping with a left inverse of the enrichment recovers the corpus. -/
theorem map_inv_id {α β : Type} {f : α → β} {g : β → α}
    (h : ∀ x, g (f x) = x) : ∀ l : List α, (l.map f).map g = l := by
  intro l
  induction l with
  | nil => rfl
  | cons a l2 ih => simp only [List.map_cons, h]; rw [ih]

/-- C2: the pipeline is a 1:1 enrichment - mapping each enriched record
back to its raw comment recovers the corpus at every stage (so no record is
duplicated or lost), and the language distribution's counts sum to the
corpus size. -/
theorem pipeline_one_to_one (d : Str → List (Language × ℚ)) (thr : ℚ)
    (fTr fEn : Str → Str) (e : Bool) (corpus : List RawComment) :
    (classifyAll d corpus).map ClassifiedComment.raw = corpus ∧
    (bucketAll d thr corpus).map (fun b => b.cls.raw) = corpus ∧
    (normalizeAll d thr fTr fEn e corpus).map (fun n => n.bkt.cls.raw) = corpus ∧
    ((langCountsOf d corpus).map Prod.snd).sum = corpus.length := by
  refine ⟨?_, ?_, ?_, ?_⟩
  · rw [classifyAll]
    exact map_inv_id (fun r => rfl) corpus
  · rw [bucketAll, classifyAll, List.map_map]
    exact map_inv_id (fun r => rfl) corpus
  · rw [normalizeAll, bucketAll, classifyAll, List.map_map, List.map_map]
    exact map_inv_id (fun r => rfl) corpus
  · have h1 : (langCountsOf d corpus).map Prod.snd
        = (((classifyAll d corpus).map ClassifiedComment.lang).dedup.map
            (fun k => ((classifyAll d corpus).map ClassifiedComment.lang).count k)) := by
      simp [langCountsOf, valueCounts, List.map_map, Function.comp]
    rw [h1, List.sum_map_count_dedup_eq_length]
    simp [classifyAll]

/-- The classifier only ever emits one of the four language labels. -/
theorem detect_language_range (d : Str → List (Language × ℚ)) (t : Str) :
    detect_language d t = "unknown" ∨ detect_language d t = "tr" ∨
    detect_language d t = "en" ∨ detect_language d t = "other" := by
  by_cases h : is_low_signal t
  · simp [detect_language, h]
  · cases hd : d t with
    | nil => simp [detect_language, h, hd]
    | cons top rest =>
      by_cases hc : top.2 < 35 / 100
      · simp [detect_language, h, hd, hc]
      · cases h1 : top.1 <;> simp [detect_language, h, hd, hc, LANG_MAP, h1]

/-- Everything the planner selects is a primary two-letter code. -/
theorem planOf_subset (d : Str → List (Language × ℚ)) (thr : ℚ)
    (corpus : List RawComment) (l : String) (hl : l ∈ planOf d thr corpus) :
    l = "tr" ∨ l = "en" := by
  unfold planOf decide_analyze_langs at hl
  by_cases h0 : ((langCountsOf d corpus).map Prod.snd).sum = 0
  · simp [h0] at hl
  · simp only [if_neg h0, List.mem_map, List.mem_filter] at hl
    obtain ⟨p, ⟨hmem, hcond⟩, rfl⟩ := hl
    simp only [Bool.and_eq_true, Bool.not_eq_true', decide_eq_false_iff_not,
      decide_eq_true_eq, not_or] at hcond
    have hkey : p.1 ∈ (classifyAll d corpus).map ClassifiedComment.lang := by
      have hmem2 : p.1 ∈ ((classifyAll d corpus).map ClassifiedComment.lang).dedup := by
        simp only [langCountsOf, valueCounts, List.mem_map] at hmem
        obtain ⟨k, hk, hkp⟩ := hmem
        rw [← hkp]
        exact hk
      exact List.mem_dedup.mp hmem2
    simp only [List.mem_map, classifyAll] at hkey
    obtain ⟨c, hc, hlang⟩ := hkey
    obtain ⟨r, hr, rfl⟩ := hc
    rcases detect_language_range d r.text with h|h|h|h
    · exact absurd (by rw [← hlang]; exact h) hcond.1.1
    · left; rw [← hlang]; exact h
    · right; rw [← hlang]; exact h
    · exact absurd (by rw [← hlang]; exact h) hcond.1.2

/-- C10: for every corpus and threshold, every bucket the pipeline produces
is one of `tr`, `en`, `others`, `unknown` - no other analyzed-language code
can become a bucket in this implementation. -/
theorem bucket_range (d : Str → List (Language × ℚ)) (thr : ℚ)
    (corpus : List RawComment) (b : String)
    (hb : b ∈ (bucketAll d thr corpus).map BucketedComment.bucket) :
    b = "tr" ∨ b = "en" ∨ b = "others" ∨ b = "unknown" := by
  simp only [bucketAll, List.map_map, Function.comp, List.mem_map] at hb
  obtain ⟨c, hc, rfl⟩ := hb
  unfold bucket
  split_ifs with h1 h2
  · right; right; right; rfl
  · rcases planOf_subset d thr corpus c.lang h2 with h|h
    · left; exact h
    · right; left; exact h
  · right; right; left; rfl

/-- The witness text classifies to `en`. -/
theorem exComment_lang : detect_language exDetector exText = "en" := by
  have hc : ¬((9 : ℚ) / 10 < 35 / 100) := by norm_num
  rw [detect_language, if_neg (by decide : ¬(is_low_signal exText = true))]
  simp [exDetector, hc, LANG_MAP]

/-- The witness corpus produces exactly the bucket `en`. -/
theorem exCorpus_buckets :
    (bucketAll exDetector (1 / 5) [exComment]).map BucketedComment.bucket = ["en"] := by
  have h2 : classifyAll exDetector [exComment]
      = [{ raw := exComment, lang := "en" }] := by
    simp only [classifyAll, List.map_cons, List.map_nil]
    rw [show exComment.text = exText from rfl, exComment_lang]
  have h3 : langCountsOf exDetector [exComment] = [("en", 1)] := by
    rw [langCountsOf, h2]
    simp [valueCounts]
  have h4 : planOf exDetector (1 / 5) [exComment] = ["en"] := by
    rw [planOf, h3, decide_analyze_langs]
    norm_num [List.filter_cons]
    rw [if_pos (by decide : ¬"en" = "unknown" ∧ ¬"en" = "other")]
    rfl
  rw [bucketAll, h2, h4]
  simp [bucket]

/-- Witness for `bucket_range` on the concrete corpus. -/
theorem bucket_range_witness :
    "en" = "tr" ∨ "en" = "en" ∨ "en" = "others" ∨ "en" = "unknown" :=
  bucket_range exDetector (1 / 5) [exComment] "en"
    (by rw [exCorpus_buckets]; decide)

end YTNLP

namespace YTNLP

/-- Counterexample to raw idempotence: `aAaA` cleans to `aaaa`, whose
second cleaning collapses the elongation run to `aa`. -/
theorem clean_text_not_idempotent :
    clean_text id id (clean_text id id ['a', 'A', 'a', 'A'] "others" false)
        "others" false
      ≠ clean_text id id ['a', 'A', 'a', 'A'] "others" false := by decide

/-- Packing a small scalar value round-trips through `Char.ofNat`. -/
theorem toNat_ofNat_small {n : ℕ} (h : n < 55296) : (Char.ofNat n).toNat = n := by
  have hv : n.isValidChar := Or.inl h
  rw [Char.ofNat, dif_pos hv]
  rfl

/-- A lowercase token character is a token character. -/
theorem lowTok_token {c : Char} (h : isLowTok c = true) : isTokenChar c = true := by
  simp only [isLowTok, Bool.or_eq_true, Bool.and_eq_true, decide_eq_true_eq] at h
  simp only [isTokenChar, Bool.or_eq_true, Bool.and_eq_true, decide_eq_true_eq]
  tauto

/-- A lowercase token character is a word character. -/
theorem lowTok_word {c : Char} (h : isLowTok c = true) : isWordChar c = true := by
  simp [isWordChar, lowTok_token h]

/-- A lowercase token character is not whitespace. -/
theorem lowTok_not_space {c : Char} (h : isLowTok c = true) : isSpaceChar c = false := by
  by_contra hb
  have hs : isSpaceChar c = true := by
    cases hx : isSpaceChar c
    · exact absurd hx hb
    · rfl
  simp only [isSpaceChar, Bool.or_eq_true, decide_eq_true_eq] at hs
  have h6 : c = ' ' ∨ c = '\t' ∨ c = '\n' ∨ c = '\r' ∨ c = '\x0b' ∨ c = '\x0c' := by
    tauto
  rcases h6 with h6|h6|h6|h6|h6|h6 <;> subst h6 <;> exact absurd h (by decide)

/-- Cleaned strings avoid any fixed character outside the repertoire. -/
theorem cleanStr_not_mem {s : Str} (h : cleanStr s) {c : Char}
    (h1 : isLowTok c = false) (h2 : c ≠ ' ') : c ∉ s := fun hc => by
  rcases h c hc with h3 | h3
  · rw [h1] at h3
    exact Bool.false_ne_true h3
  · exact h2 h3

/-- `lowerChar` fixes every character of the canonical repertoire. -/
theorem lowerChar_fix {c : Char} (h : isLowTok c = true ∨ c = ' ') :
    lowerChar c = [c] := by
  rcases h with h | rfl
  · simp only [isLowTok, Bool.or_eq_true, Bool.and_eq_true, decide_eq_true_eq] at h
    rcases h with (⟨h1, h2⟩ | ⟨h1, h2⟩) | h
    · have hne : ∀ d : Char, 122 < d.toNat → c ≠ d := fun d hd he => by subst he; omega
      unfold lowerChar
      rw [if_neg (hne _ (by decide)), if_neg (hne _ (by decide)),
        if_neg (hne _ (by decide)), if_neg (hne _ (by decide)),
        if_neg (hne _ (by decide)), if_neg (hne _ (by decide)),
        if_neg (by simp only [Bool.and_eq_true, decide_eq_true_eq, not_and]; omega)]
    · have hne : ∀ d : Char, 122 < d.toNat → c ≠ d := fun d hd he => by subst he; omega
      unfold lowerChar
      rw [if_neg (hne _ (by decide)), if_neg (hne _ (by decide)),
        if_neg (hne _ (by decide)), if_neg (hne _ (by decide)),
        if_neg (hne _ (by decide)), if_neg (hne _ (by decide)),
        if_neg (by simp only [Bool.and_eq_true, decide_eq_true_eq, not_and]; omega)]
    · have hc : c ∈ turkishLower := by
        simpa [List.elem_iff] using h
      fin_cases hc <;> decide
  · decide

/-- `lowerChar` only produces canonical token characters from token
characters. -/
theorem lowerChar_out {d c : Char} (h : c ∈ lowerChar d)
    (ht : isTokenChar c = true) : isLowTok c = true := by
  unfold lowerChar at h
  split_ifs at h with a1 a2 a3 a4 a5 a6 a7
  · simp only [List.mem_singleton] at h; subst h; decide
  · simp only [List.mem_singleton] at h; subst h; decide
  · simp only [List.mem_cons, List.mem_singleton, List.not_mem_nil, or_false] at h
    rcases h with h | h
    · subst h; decide
    · subst h; exact absurd ht (by decide)
  · simp only [List.mem_singleton] at h; subst h; decide
  · simp only [List.mem_singleton] at h; subst h; decide
  · simp only [List.mem_singleton] at h; subst h; decide
  · simp only [List.mem_singleton] at h
    simp only [Bool.and_eq_true, decide_eq_true_eq] at a7
    have hv : d.toNat + 32 < 55296 := by omega
    have hval : c.toNat = d.toNat + 32 := by rw [h, toNat_ofNat_small hv]
    simp only [isLowTok, Bool.or_eq_true, Bool.and_eq_true, decide_eq_true_eq]
    left; left; omega
  · simp only [List.mem_singleton] at h
    subst h
    simp only [Bool.and_eq_true, decide_eq_true_eq, not_and, not_le] at a7
    simp only [isTokenChar, Bool.or_eq_true, Bool.and_eq_true, decide_eq_true_eq] at ht
    simp only [isLowTok, Bool.or_eq_true, Bool.and_eq_true, decide_eq_true_eq]
    rcases ht with (((h1 | h1) | h1) | h1) | h1
    · tauto
    · omega
    · tauto
    · tauto
    · have hmem : c ∈ turkishUpper := by simpa [List.elem_iff] using h1
      simp only [turkishUpper, List.mem_cons, List.not_mem_nil, or_false] at hmem
      rcases hmem with hx|hx|hx|hx|hx|hx
      exacts [absurd hx a1, absurd hx a2, absurd hx a3, absurd hx a4,
        absurd hx a5, absurd hx a6]

end YTNLP

namespace YTNLP

/-- Joining a singleton token list is the token itself. -/
theorem intercalate_one (t : Str) : List.intercalate [' '] [t] = t := by
  simp [List.intercalate]

/-- Unfolding one token off a space-join of two or more tokens. -/
theorem intercalate_cons2 (t t2 : Str) (ts : List Str) :
    List.intercalate [' '] (t :: t2 :: ts)
      = t ++ ' ' :: List.intercalate [' '] (t2 :: ts) := by
  simp [List.intercalate]

/-- Scanning a block of class characters accumulates it onto the current
run. -/
theorem runsAcc_all (p : Char → Bool) (t : Str) (h : ∀ c ∈ t, p c = true) :
    ∀ (cur rest : Str), runsAcc p cur (t ++ rest) = runsAcc p (t.reverse ++ cur) rest := by
  induction t with
  | nil => intro cur rest; simp
  | cons c cs ih =>
    intro cur rest
    have hc : p c = true := h c (List.mem_cons_self c cs)
    have hcs : ∀ x ∈ cs, p x = true := fun x hx => h x (List.mem_cons_of_mem c hx)
    simp only [List.cons_append, runsAcc, hc, if_true, List.append_eq]
    rw [ih hcs (c :: cur) rest]
    simp [List.append_assoc]

/-- A single all-class token is its own unique run. -/
theorem runsP_single (p : Char → Bool) (t : Str) (hne : t ≠ [])
    (h : ∀ c ∈ t, p c = true) : runsP p t = [t] := by
  unfold runsP
  have := runsAcc_all p t h [] []
  rw [List.append_nil] at this
  rw [this]
  have hemp : t.reverse.isEmpty = false := by
    simp [List.isEmpty_iff, hne]
  simp [runsAcc, hemp]

/-- A leading all-class token followed by a space is split off as one run. -/
theorem runsP_token_space (p : Char → Bool) (t rest : Str) (hne : t ≠ [])
    (h : ∀ c ∈ t, p c = true) (hsp : p ' ' = false) :
    runsP p (t ++ ' ' :: rest) = t :: runsP p rest := by
  unfold runsP
  have hall := runsAcc_all p t h [] (' ' :: rest)
  rw [List.append_nil] at hall
  rw [hall]
  have hemp : t.reverse.isEmpty = false := by
    simp [List.isEmpty_iff, hne]
  simp [runsAcc, hsp, hemp]

/-- Splitting a space-joined token list recovers exactly the tokens. -/
theorem runsP_intercalate (p : Char → Bool) (hsp : p ' ' = false) :
    ∀ ts : List Str, (∀ t ∈ ts, t ≠ [] ∧ ∀ c ∈ t, p c = true) →
      runsP p (List.intercalate [' '] ts) = ts := by
  intro ts
  induction ts with
  | nil => intro _; rfl
  | cons t ts ih =>
    intro h
    obtain ⟨hne, hall⟩ := h t (List.mem_cons_self t ts)
    cases ts with
    | nil =>
      rw [intercalate_one]
      exact runsP_single p t hne hall
    | cons t2 ts2 =>
      rw [intercalate_cons2]
      rw [runsP_token_space p t _ hne hall hsp]
      rw [ih (fun x hx => h x (List.mem_cons_of_mem t hx))]

/-- Every run produced by the scanner is non-empty, consists of class
characters, and inherits any property `P` holding on the input and the
accumulator. -/
theorem runsAcc_sound (p : Char → Bool) (P : Char → Prop) :
    ∀ (s cur : Str), (∀ c ∈ s, P c) → (∀ c ∈ cur, P c ∧ p c = true) →
      ∀ t ∈ runsAcc p cur s, t ≠ [] ∧ ∀ c ∈ t, P c ∧ p c = true := by
  intro s
  induction s with
  | nil =>
    intro cur _ hcur t ht
    by_cases hemp : cur.isEmpty
    · simp [runsAcc, hemp] at ht
    · simp only [runsAcc, hemp, Bool.false_eq_true, if_false,
        List.mem_singleton] at ht
      subst ht
      refine ⟨by simpa [List.isEmpty_iff] using hemp, ?_⟩
      intro c hc
      exact hcur c (List.mem_reverse.mp hc)
  | cons a s2 ih =>
    intro cur hs hcur t ht
    have hPa : P a := hs a (List.mem_cons_self a s2)
    have hs2 : ∀ c ∈ s2, P c := fun c hc => hs c (List.mem_cons_of_mem a hc)
    by_cases hpa : p a
    · simp only [runsAcc, hpa, if_true] at ht
      exact ih (a :: cur) hs2
        (fun c hc => by
          rcases List.mem_cons.mp hc with rfl | hc2
          · exact ⟨hPa, hpa⟩
          · exact hcur c hc2) t ht
    · have hpa' : p a = false := by simpa using hpa
      by_cases hemp : cur.isEmpty
      · simp only [runsAcc, hpa', Bool.false_eq_true, if_false, hemp,
          if_true] at ht
        exact ih [] hs2 (by simp) t ht
      · simp only [runsAcc, hpa', Bool.false_eq_true, if_false, hemp,
          List.mem_cons] at ht
        rcases ht with rfl | ht2
        · refine ⟨by simpa [List.isEmpty_iff] using hemp, ?_⟩
          intro c hc
          exact hcur c (List.mem_reverse.mp hc)
        · exact ih [] hs2 (by simp) t ht2

/-- Every character of a space-joined token list is a token character or a
space. -/
theorem mem_intercalate_space (ts : List Str) (c : Char)
    (hc : c ∈ List.intercalate [' '] ts) : (∃ t ∈ ts, c ∈ t) ∨ c = ' ' := by
  induction ts with
  | nil => simp [List.intercalate] at hc
  | cons t ts ih =>
    cases ts with
    | nil =>
      rw [intercalate_one] at hc
      exact Or.inl ⟨t, List.mem_cons_self t [], hc⟩
    | cons t2 ts2 =>
      rw [intercalate_cons2] at hc
      rcases List.mem_append.mp hc with h | h
      · exact Or.inl ⟨t, List.mem_cons_self _ _, h⟩
      · rcases List.mem_cons.mp h with rfl | h2
        · exact Or.inr rfl
        · rcases ih h2 with ⟨t3, ht3, hct3⟩ | h3
          · exact Or.inl ⟨t3, List.mem_cons_of_mem t ht3, hct3⟩
          · exact Or.inr h3

/-- Canonical token lists join to canonical strings. -/
theorem cleanStr_intercalate (ts : List Str) (h : cleanToks ts) :
    cleanStr (List.intercalate [' '] ts) := by
  intro c hc
  rcases mem_intercalate_space ts c hc with ⟨t, ht, hct⟩ | rfl
  · exact Or.inl ((h t ht).2 c hct)
  · exact Or.inr rfl

end YTNLP

namespace YTNLP

/-- Newline replacement is the identity on strings without line breaks. -/
theorem mapNl_fix (s : Str) (h1 : '\n' ∉ s) (h2 : '\r' ∉ s) :
    s.map (fun c => if c = '\n' || c = '\r' then ' ' else c) = s := by
  have hcong : ∀ c ∈ s, (fun c => if c = '\n' || c = '\r' then ' ' else c) c
      = (fun c => c) c := by
    intro c hc
    have hn : c ≠ '\n' := fun hh => h1 (hh ▸ hc)
    have hr : c ≠ '\r' := fun hh => h2 (hh ▸ hc)
    simp [hn, hr]
  rw [List.map_congr_left hcong, List.map_id']

/-- `html.unescape` is the identity on strings without an ampersand. -/
theorem htmlUnescape_noamp (s : Str) (h : '&' ∉ s) : htmlUnescape s = s := by
  induction s with
  | nil => rfl
  | cons c cs ih =>
    have hc : c ≠ '&' := fun hh => h (hh ▸ List.mem_cons_self c cs)
    have hcs : '&' ∉ cs := fun hh => h (List.mem_cons_of_mem c hh)
    rw [htmlUnescape.eq_def]
    split <;> simp_all

/-- One non-whitespace character passes through the whitespace collapse. -/
theorem collapseWs_cons_nonspace (c : Char) (cs : Str) (hc : isSpaceChar c = false) :
    collapseWs (c :: cs) = c :: collapseWs cs := by
  rw [collapseWs.eq_def]
  simp [hc]

/-- A space followed by a non-whitespace character passes through the
whitespace collapse. -/
theorem collapseWs_space_cons (d : Char) (xs : Str) (hd : isSpaceChar d = false) :
    collapseWs (' ' :: d :: xs) = ' ' :: collapseWs (d :: xs) := by
  have hsp : isSpaceChar ' ' = true := by decide
  rw [collapseWs.eq_def]
  simp [hsp, hd]

/-- The whitespace collapse passes over a whitespace-free block. -/
theorem collapseWs_append_solid (t : Str) (ht : ∀ c ∈ t, isSpaceChar c = false) :
    ∀ rest, collapseWs (t ++ rest) = t ++ collapseWs rest := by
  induction t with
  | nil => intro rest; rfl
  | cons c cs ih =>
    intro rest
    have hc := ht c (List.mem_cons_self c cs)
    have hcs : ∀ x ∈ cs, isSpaceChar x = false :=
      fun x hx => ht x (List.mem_cons_of_mem c hx)
    rw [List.cons_append, collapseWs_cons_nonspace c _ hc, ih hcs rest,
      List.cons_append]

/-- The whitespace collapse fixes canonical space-joined token lists. -/
theorem collapseWs_join : ∀ ts : List Str,
    (∀ t ∈ ts, t ≠ [] ∧ ∀ c ∈ t, isSpaceChar c = false) →
    collapseWs (List.intercalate [' '] ts) = List.intercalate [' '] ts := by
  intro ts
  induction ts with
  | nil => intro _; rfl
  | cons t ts ih =>
    intro h
    obtain ⟨hne, hsolid⟩ := h t (List.mem_cons_self t ts)
    cases ts with
    | nil =>
      rw [intercalate_one]
      have hct := collapseWs_append_solid t hsolid []
      simpa [show collapseWs ([] : Str) = [] from rfl] using hct
    | cons t2 ts2 =>
      have htail := ih (fun x hx => h x (List.mem_cons_of_mem t hx))
      obtain ⟨hne2, hsolid2⟩ := h t2 (List.mem_cons_of_mem t (List.mem_cons_self t2 ts2))
      obtain ⟨d, t2', rfl⟩ := List.exists_cons_of_ne_nil hne2
      have hd : isSpaceChar d = false := hsolid2 d (List.mem_cons_self d t2')
      rw [intercalate_cons2, collapseWs_append_solid t hsolid]
      congr 1
      have hshape : ∃ X, List.intercalate [' '] ((d :: t2') :: ts2) = d :: X := by
        cases ts2 with
        | nil => exact ⟨t2', by rw [intercalate_one]⟩
        | cons t3 ts3 =>
          exact ⟨t2' ++ ' ' :: List.intercalate [' '] (t3 :: ts3), by
            rw [intercalate_cons2]; rfl⟩
      obtain ⟨X, hX⟩ := hshape
      rw [hX, collapseWs_space_cons d X hd, ← hX, htail]

/-- The last character of a canonical space-joined token list is not
whitespace. -/
theorem intercalate_getLast_nonspace : ∀ ts : List Str,
    (∀ t ∈ ts, t ≠ [] ∧ ∀ c ∈ t, isSpaceChar c = false) →
    ∀ c, (List.intercalate [' '] ts).getLast? = some c → isSpaceChar c = false := by
  intro ts
  induction ts with
  | nil => intro _ c hc; simp [List.intercalate] at hc
  | cons t ts ih =>
    intro h c hc
    obtain ⟨hne, hsolid⟩ := h t (List.mem_cons_self t ts)
    cases ts with
    | nil =>
      rw [intercalate_one] at hc
      exact hsolid c (List.mem_of_getLast?_eq_some hc)
    | cons t2 ts2 =>
      have hICne : List.intercalate [' '] (t2 :: ts2) ≠ [] := by
        obtain ⟨hne2, _⟩ := h t2 (List.mem_cons_of_mem t (List.mem_cons_self t2 ts2))
        obtain ⟨d, t2', rfl⟩ := List.exists_cons_of_ne_nil hne2
        cases ts2 with
        | nil => rw [intercalate_one]; exact List.cons_ne_nil d t2'
        | cons t3 ts3 => rw [intercalate_cons2]; exact List.cons_ne_nil d _
      rw [intercalate_cons2, List.getLast?_append] at hc
      obtain ⟨d, X, hX⟩ := List.exists_cons_of_ne_nil hICne
      rw [hX, List.getLast?_cons_cons, ← hX] at hc
      cases hIC : (List.intercalate [' '] (t2 :: ts2)).getLast? with
      | none =>
        rw [List.getLast?_eq_none_iff] at hIC
        exact absurd hIC hICne
      | some y =>
        rw [hIC] at hc
        have h2 : (some y).or (List.getLast? t) = some y := rfl
        rw [h2] at hc
        have hyc : y = c := Option.some_injective _ hc
        subst hyc
        exact ih (fun x hx => h x (List.mem_cons_of_mem t hx)) y hIC

/-- `str.strip()` fixes canonical space-joined token lists. -/
theorem pyStrip_join (ts : List Str)
    (h : ∀ t ∈ ts, t ≠ [] ∧ ∀ c ∈ t, isSpaceChar c = false) :
    pyStrip (List.intercalate [' '] ts) = List.intercalate [' '] ts := by
  cases ts with
  | nil => rfl
  | cons t ts2 =>
    obtain ⟨hne, hsolid⟩ := h t (List.mem_cons_self t ts2)
    obtain ⟨d, t', rfl⟩ := List.exists_cons_of_ne_nil hne
    have hd : isSpaceChar d = false := hsolid d (List.mem_cons_self d t')
    have hshape : ∃ X, List.intercalate [' '] ((d :: t') :: ts2) = d :: X := by
      cases ts2 with
      | nil => exact ⟨t', by rw [intercalate_one]⟩
      | cons t3 ts3 =>
        exact ⟨t' ++ ' ' :: List.intercalate [' '] (t3 :: ts3), by
          rw [intercalate_cons2]; rfl⟩
    obtain ⟨X, hX⟩ := hshape
    have h1 : (List.intercalate [' '] ((d :: t') :: ts2)).dropWhile isSpaceChar
        = List.intercalate [' '] ((d :: t') :: ts2) := by
      rw [hX]
      exact List.dropWhile_cons_of_neg (by simp [hd])
    unfold pyStrip
    rw [h1]
    cases hsr : (List.intercalate [' '] ((d :: t') :: ts2)).reverse with
    | nil =>
      have : List.intercalate [' '] ((d :: t') :: ts2) = [] :=
        List.reverse_eq_nil_iff.mp hsr
      rw [hX] at this
      exact absurd this (List.cons_ne_nil d X)
    | cons e r =>
      have he : (List.intercalate [' '] ((d :: t') :: ts2)).getLast? = some e := by
        rw [← List.head?_reverse, hsr]
        rfl
      have hens : isSpaceChar e = false :=
        intercalate_getLast_nonspace ((d :: t') :: ts2) h e he
      have hdw : List.dropWhile isSpaceChar (e :: r) = e :: r :=
        List.dropWhile_cons_of_neg (by simp [hens])
      rw [hdw, ← hsr, List.reverse_reverse]

/-- The whitespace squeeze fixes canonical space-joined token lists. -/
theorem squeeze_join (ts : List Str)
    (h : ∀ t ∈ ts, t ≠ [] ∧ ∀ c ∈ t, isSpaceChar c = false) :
    squeeze (List.intercalate [' '] ts) = List.intercalate [' '] ts := by
  unfold squeeze
  rw [collapseWs_join ts h, pyStrip_join ts h]

/-- Canonical token lists have whitespace-free non-empty tokens. -/
theorem cleanToks_solid {ts : List Str} (h : cleanToks ts) :
    ∀ t ∈ ts, t ≠ [] ∧ ∀ c ∈ t, isSpaceChar c = false :=
  fun t ht => ⟨(h t ht).1, fun c hc => lowTok_not_space ((h t ht).2 c hc)⟩

end YTNLP

namespace YTNLP

/-- A quad run at the head of four-or-more replicated characters. -/
theorem hasQuadRun_replicate {c : Char} {k : ℕ} (X : Str) (hk : 4 ≤ k) :
    hasQuadRun (List.replicate k c ++ X) = true := by
  obtain ⟨k2, rfl⟩ : ∃ k2, k = k2 + 4 := ⟨k - 4, by omega⟩
  rw [List.replicate_succ, List.cons_append, hasQuadRun]
  have h3 : (List.replicate (k2 + 3) c ++ X).take 3 = [c, c, c] := by
    rw [List.take_append_of_le_length (by simp)]
    rw [List.replicate_succ, List.replicate_succ, List.replicate_succ]
    simp
  simp [h3]

/-- Quad-run-freeness descends to list tails. -/
theorem hasQuadRun_tail {a : Char} {l : Str} (h : hasQuadRun (a :: l) = false) :
    hasQuadRun l = false := by
  rw [hasQuadRun] at h
  exact (Bool.or_eq_false_iff.mp h).2

/-- Quad-run-freeness descends to suffixes after an appended prefix. -/
theorem hasQuadRun_append {l m : Str} (h : hasQuadRun (l ++ m) = false) :
    hasQuadRun m = false := by
  induction l with
  | nil => exact h
  | cons a l2 ih => exact ih (hasQuadRun_tail h)

/-- Elongation collapse is the identity on quad-run-free strings: the
scanner reproduces the run seen so far plus the rest. -/
theorem nrcGo_fix : ∀ (cs : Str) (c : Char) (k : ℕ),
    hasQuadRun (List.replicate k c ++ cs) = false →
    nrcGo c k cs = List.replicate k c ++ cs := by
  intro cs
  induction cs with
  | nil =>
    intro c k h
    have hk : k < 4 := by
      by_contra hge
      rw [hasQuadRun_replicate [] (by omega)] at h
      exact absurd h (by simp)
    rw [nrcGo, emitRun, if_neg (by omega)]
    simp
  | cons d ds ih =>
    intro c k h
    by_cases hdc : d = c
    · subst hdc
      rw [nrcGo, if_pos rfl]
      have hrep : List.replicate k d ++ d :: ds = List.replicate (k + 1) d ++ ds := by
        rw [List.replicate_succ' k d, List.append_assoc]
        rfl
      rw [hrep] at h
      rw [ih d (k + 1) h, hrep]
    · rw [nrcGo, if_neg hdc]
      have hk : k < 4 := by
        by_contra hge
        rw [hasQuadRun_replicate (d :: ds) (by omega)] at h
        exact absurd h (by simp)
      have htail : hasQuadRun (List.replicate 1 d ++ ds) = false := by
        have := hasQuadRun_append h
        simpa [List.replicate] using this
      rw [emitRun, if_neg (by omega), ih d 1 htail]
      simp [List.replicate]

/-- `normalize_repeated_chars` is the identity on quad-run-free strings. -/
theorem nrc_fix (s : Str) (h : hasQuadRun s = false) :
    normalize_repeated_chars s = s := by
  cases s with
  | nil => rfl
  | cons c cs =>
    rw [normalize_repeated_chars]
    have h1 : hasQuadRun (List.replicate 1 c ++ cs) = false := by
      simpa [List.replicate] using h
    have := nrcGo_fix cs c 1 h1
    simpa [List.replicate] using this

end YTNLP

namespace YTNLP

/-- The substitution scanner is the identity when no position matches. -/
theorem subMatchF_id (m : Str → Option ℕ) :
    ∀ (f : ℕ) (s : Str), (∀ s2, s2 <:+ s → m s2 = none) → subMatchF m f s = s := by
  intro f
  induction f with
  | zero => intro s _; rfl
  | succ f ih =>
    intro s h
    cases s with
    | nil => rfl
    | cons c cs =>
      have hm : m (c :: cs) = none := h (c :: cs) (List.suffix_refl _)
      simp only [subMatchF, hm]
      rw [ih cs (fun s2 hs2 => h s2 (hs2.trans (List.suffix_cons c cs)))]

/-- `http`-continuation-freeness descends to suffixes. -/
theorem hasHttpCont_suffix {s s2 : Str} (hsuf : s2 <:+ s)
    (h : hasHttpCont s = false) : hasHttpCont s2 = false := by
  induction s with
  | nil =>
    rw [List.suffix_nil.mp hsuf]
    rfl
  | cons c cs ih =>
    rcases List.suffix_cons_iff.mp hsuf with rfl | h2
    · exact h
    · rw [hasHttpCont] at h
      exact ih h2 (Bool.or_eq_false_iff.mp h).2

/-- No suffix of a dot-free, `http`-continuation-free string matches the
URL regex. -/
theorem urlMatchLen_none {s : Str} (hh : hasHttpCont s = false) (hd : '.' ∉ s) :
    ∀ s2, s2 <:+ s → urlMatchLen s2 = none := by
  intro s2 hsuf
  rw [urlMatchLen.eq_def]
  split
  · rename_i rest
    by_cases hrun : (rest.takeWhile fun c => !isSpaceChar c).isEmpty
    · simp [hrun]
    · exfalso
      cases rest with
      | nil => simp [List.takeWhile] at hrun
      | cons e rest2 =>
        have he : isSpaceChar e = false := by
          by_contra hbe
          have he2 : isSpaceChar e = true := by
            cases hx : isSpaceChar e
            · exact absurd hx hbe
            · rfl
          rw [List.takeWhile_cons_of_neg (by simp [he2])] at hrun
          simp at hrun
        have hhere : httpHere ('h' :: 't' :: 't' :: 'p' :: e :: rest2) = true := by
          simp [httpHere, he]
        have hcont : hasHttpCont ('h' :: 't' :: 't' :: 'p' :: e :: rest2) = true := by
          rw [hasHttpCont, hhere]
          rfl
        have := hasHttpCont_suffix hsuf hh
        rw [this] at hcont
        exact absurd hcont (by simp)
  · rename_i rest
    exfalso
    exact hd (hsuf.subset (by simp))
  · rfl

/-- No suffix of an at-sign-free string matches the mention regex. -/
theorem mentionMatchLen_none {s : Str} (ha : '@' ∉ s) :
    ∀ s2, s2 <:+ s → mentionMatchLen s2 = none := by
  intro s2 hsuf
  rw [mentionMatchLen.eq_def]
  split
  · exfalso
    exact ha (hsuf.subset (by simp))
  · rfl

/-- URL stripping is the identity on dot-free strings without an `http`
continuation. -/
theorem stripUrls_fix (s : Str) (hh : hasHttpCont s = false) (hd : '.' ∉ s) :
    stripUrls s = s :=
  subMatchF_id urlMatchLen s.length s (urlMatchLen_none hh hd)

/-- Mention stripping is the identity on at-sign-free strings. -/
theorem stripMentions_fix (s : Str) (ha : '@' ∉ s) : stripMentions s = s :=
  subMatchF_id mentionMatchLen s.length s (mentionMatchLen_none ha)

/-- Hash removal is the identity on hash-free strings. -/
theorem filter_hash_fix (s : Str) (h : '#' ∉ s) :
    s.filter (fun c => c != '#') = s :=
  List.filter_eq_self.mpr (fun a ha => by
    simp only [bne_iff_ne, ne_eq]
    exact fun he => h (he ▸ ha))

/-- Lowercasing is the identity on canonical strings. -/
theorem pyLower_fix (s : Str) (h : cleanStr s) : pyLower s = s := by
  induction s with
  | nil => rfl
  | cons c cs ih =>
    have hc := h c (List.mem_cons_self c cs)
    have hcs : cleanStr cs := fun x hx => h x (List.mem_cons_of_mem c hx)
    simp only [pyLower, List.flatMap_cons] at ih ⊢
    rw [lowerChar_fix hc, ih hcs]
    rfl

/-- Punctuation removal is the identity on canonical strings. -/
theorem stripPunct_fix (s : Str) (h : cleanStr s) : stripPunct s = s := by
  unfold stripPunct
  have hcong : ∀ c ∈ s,
      (fun c => if isWordChar c || isSpaceChar c || turkishLower.contains c
        then c else ' ') c = (fun c => c) c := by
    intro c hc
    rcases h c hc with h1 | rfl
    · simp [lowTok_word h1]
    · simp [isSpaceChar]
  rw [List.map_congr_left hcong, List.map_id']

end YTNLP

namespace YTNLP

/-- Tokenizing a canonical space-joined token list recovers the tokens. -/
theorem tokenize_intercalate (ts : List Str) (h : cleanToks ts) :
    tokenize (List.intercalate [' '] ts) = ts := by
  unfold tokenize
  rw [pyLower_fix _ (cleanStr_intercalate ts h)]
  exact runsP_intercalate isTokenChar (by decide) ts
    (fun t ht => ⟨(h t ht).1, fun c hc => lowTok_token ((h t ht).2 c hc)⟩)

/-- Every token list produced by `tokenize` is canonical. -/
theorem tokenize_cleanToks (s : Str) : cleanToks (tokenize s) := by
  intro t ht
  unfold tokenize runsP at ht
  have hmem : ∀ c ∈ pyLower s, isTokenChar c = true → isLowTok c = true := by
    intro c hc hct
    obtain ⟨d, _, hcd⟩ := List.mem_flatMap.mp hc
    exact lowerChar_out hcd hct
  have hsound := runsAcc_sound isTokenChar
    (fun c => isTokenChar c = true → isLowTok c = true) (pyLower s) []
    hmem (by simp) t ht
  exact ⟨hsound.1, fun c hc => (hsound.2 c hc).1 (hsound.2 c hc).2⟩

/-- `unidecode` is the identity outside the Turkish special letters. -/
theorem uniChar_id {c : Char}
    (h : c ∉ (['ç', 'ğ', 'ı', 'ö', 'ş', 'ü', 'Ç', 'Ğ', 'İ', 'Ö', 'Ş', 'Ü'] : List Char)) :
    uniChar c = c := by
  simp only [List.mem_cons, List.not_mem_nil, or_false, not_or] at h
  obtain ⟨n1, n2, n3, n4, n5, n6, n7, n8, n9, n10, n11, n12⟩ := h
  unfold uniChar
  rw [if_neg n1, if_neg n2, if_neg n3, if_neg n4, if_neg n5, if_neg n6,
    if_neg n7, if_neg n8, if_neg n9, if_neg n10, if_neg n11, if_neg n12]

/-- `unidecode` is idempotent on characters. -/
theorem uniChar_idem (c : Char) : uniChar (uniChar c) = uniChar c := by
  by_cases h : c ∈ (['ç', 'ğ', 'ı', 'ö', 'ş', 'ü', 'Ç', 'Ğ', 'İ', 'Ö', 'Ş', 'Ü'] : List Char)
  · simp only [List.mem_cons, List.not_mem_nil, or_false] at h
    rcases h with rfl|rfl|rfl|rfl|rfl|rfl|rfl|rfl|rfl|rfl|rfl|rfl <;> decide
  · rw [uniChar_id h, uniChar_id h]

/-- `unidecode` keeps canonical characters canonical. -/
theorem uniChar_lowTok {c : Char} (h : isLowTok c = true) :
    isLowTok (uniChar c) = true := by
  by_cases hm : c ∈ (['ç', 'ğ', 'ı', 'ö', 'ş', 'ü', 'Ç', 'Ğ', 'İ', 'Ö', 'Ş', 'Ü'] : List Char)
  · simp only [List.mem_cons, List.not_mem_nil, or_false] at hm
    rcases hm with rfl|rfl|rfl|rfl|rfl|rfl|rfl|rfl|rfl|rfl|rfl|rfl <;>
      first | decide | exact absurd h (by decide)
  · rw [uniChar_id hm]
    exact h

/-- `unidecode` is idempotent on tokens. -/
theorem unidecodeStr_idem (t : Str) :
    unidecodeStr (unidecodeStr t) = unidecodeStr t := by
  unfold unidecodeStr
  rw [List.map_map]
  exact List.map_congr_left (fun c _ => uniChar_idem c)

/-- The pre-tokenization chain of `clean_text` fixes canonical strings
without elongation runs or `http` continuations. -/
theorem preClean_fix (ts : List Str) (h : cleanToks ts)
    (hq : hasQuadRun (List.intercalate [' '] ts) = false)
    (hh : hasHttpCont (List.intercalate [' '] ts) = false) :
    preClean (List.intercalate [' '] ts) = List.intercalate [' '] ts := by
  have hcs : cleanStr (List.intercalate [' '] ts) := cleanStr_intercalate ts h
  have hsolid := cleanToks_solid h
  simp only [preClean]
  rw [htmlUnescape_noamp _ (cleanStr_not_mem hcs (by decide) (by decide)),
    mapNl_fix _ (cleanStr_not_mem hcs (by decide) (by decide))
      (cleanStr_not_mem hcs (by decide) (by decide)),
    squeeze_join ts hsolid,
    nrc_fix _ hq,
    stripUrls_fix _ hh (cleanStr_not_mem hcs (by decide) (by decide)),
    stripMentions_fix _ (cleanStr_not_mem hcs (by decide) (by decide)),
    filter_hash_fix _ (cleanStr_not_mem hcs (by decide) (by decide)),
    pyLower_fix _ hcs,
    stripPunct_fix _ hcs,
    squeeze_join ts hsolid]

end YTNLP

namespace YTNLP

/-- C6 (amended): `clean_text` is stable on already-clean text - a second
application leaves the output unchanged, provided the output contains no
run of four or more identical characters and no `http` followed by a
non-space character (each of which the first pass would rewrite again), with
stemming disabled as in the pipeline default. -/
theorem clean_text_stable (fTr fEn : Str → Str) (text : Str) (b : String)
    (hq : hasQuadRun (clean_text fTr fEn text b false) = false)
    (hh : hasHttpCont (clean_text fTr fEn text b false) = false) :
    clean_text fTr fEn (clean_text fTr fEn text b false) b false
      = clean_text fTr fEn text b false := by
  have h0 : cleanToks (tokenize (preClean text)) := tokenize_cleanToks _
  by_cases hb1 : b = "tr"
  · subst hb1
    have h1 : clean_text fTr fEn text "tr" false
        = List.intercalate [' ']
            ((tokenize (preClean text)).filter (fun w => !decide (w ∈ TR_STOP))) := rfl
    have hct : cleanToks ((tokenize (preClean text)).filter
        (fun w => !decide (w ∈ TR_STOP))) :=
      fun t ht => h0 t (List.mem_of_mem_filter ht)
    rw [h1] at hq hh ⊢
    set ts := (tokenize (preClean text)).filter (fun w => !decide (w ∈ TR_STOP))
      with hts
    have h2 : tokenize (preClean (List.intercalate [' '] ts)) = ts := by
      rw [preClean_fix ts hct hq hh, tokenize_intercalate ts hct]
    have h3 : ts.filter (fun w => !decide (w ∈ TR_STOP)) = ts := by
      apply List.filter_eq_self.mpr
      intro a ha
      rw [hts] at ha
      exact (List.mem_filter.mp ha).2
    calc clean_text fTr fEn (List.intercalate [' '] ts) "tr" false
        = List.intercalate [' ']
            ((tokenize (preClean (List.intercalate [' '] ts))).filter
              (fun w => !decide (w ∈ TR_STOP))) := rfl
      _ = List.intercalate [' '] (ts.filter (fun w => !decide (w ∈ TR_STOP))) := by
            rw [h2]
      _ = List.intercalate [' '] ts := by rw [h3]
  · by_cases hb2 : b = "en"
    · subst hb2
      have h1 : clean_text fTr fEn text "en" false
          = List.intercalate [' ']
              (((tokenize (preClean text)).map unidecodeStr).filter
                (fun w => !decide (w ∈ EN_STOP))) := rfl
      have hct : cleanToks (((tokenize (preClean text)).map unidecodeStr).filter
          (fun w => !decide (w ∈ EN_STOP))) := by
        intro t ht
        have ht2 := List.mem_of_mem_filter ht
        obtain ⟨t0, ht0, rfl⟩ := List.mem_map.mp ht2
        obtain ⟨hne0, hclean0⟩ := h0 t0 ht0
        constructor
        · simp [unidecodeStr, hne0]
        · intro c hc
          obtain ⟨c0, hc0, rfl⟩ := List.mem_map.mp hc
          exact uniChar_lowTok (hclean0 c0 hc0)
      rw [h1] at hq hh ⊢
      set ts := ((tokenize (preClean text)).map unidecodeStr).filter
        (fun w => !decide (w ∈ EN_STOP)) with hts
      have h2 : tokenize (preClean (List.intercalate [' '] ts)) = ts := by
        rw [preClean_fix ts hct hq hh, tokenize_intercalate ts hct]
      have h4 : ts.map unidecodeStr = ts := by
        have hcong : ∀ t ∈ ts, unidecodeStr t = (fun t => t) t := by
          intro t ht
          rw [hts] at ht
          obtain ⟨t0, _, rfl⟩ := List.mem_map.mp (List.mem_of_mem_filter ht)
          exact unidecodeStr_idem t0
        rw [List.map_congr_left hcong, List.map_id']
      have h3 : ts.filter (fun w => !decide (w ∈ EN_STOP)) = ts := by
        apply List.filter_eq_self.mpr
        intro a ha
        rw [hts] at ha
        exact (List.mem_filter.mp ha).2
      calc clean_text fTr fEn (List.intercalate [' '] ts) "en" false
          = List.intercalate [' ']
              (((tokenize (preClean (List.intercalate [' '] ts))).map unidecodeStr).filter
                (fun w => !decide (w ∈ EN_STOP))) := rfl
        _ = List.intercalate [' ']
              ((ts.map unidecodeStr).filter (fun w => !decide (w ∈ EN_STOP))) := by
              rw [h2]
        _ = List.intercalate [' '] (ts.filter (fun w => !decide (w ∈ EN_STOP))) := by
              rw [h4]
        _ = List.intercalate [' '] ts := by rw [h3]
    · have h1 : clean_text fTr fEn text b false
          = List.intercalate [' '] (tokenize (preClean text)) := by
        simp only [clean_text]
        rw [if_neg hb1, if_neg hb2]
      rw [h1] at hq hh ⊢
      have h2 : tokenize
          (preClean (List.intercalate [' '] (tokenize (preClean text))))
          = tokenize (preClean text) := by
        rw [preClean_fix _ h0 hq hh, tokenize_intercalate _ h0]
      calc clean_text fTr fEn
              (List.intercalate [' '] (tokenize (preClean text))) b false
          = List.intercalate [' ']
              (tokenize (preClean
                (List.intercalate [' '] (tokenize (preClean text))))) := by
            simp only [clean_text]
            rw [if_neg hb1, if_neg hb2]
        _ = List.intercalate [' '] (tokenize (preClean text)) := by rw [h2]

/-- Witness for `clean_text_stable` on a concrete clean text. -/
theorem clean_text_stable_witness :
    hasQuadRun (clean_text id id ['o', 'k', ' ', 'g', 'o'] "others" false) = false ∧
    hasHttpCont (clean_text id id ['o', 'k', ' ', 'g', 'o'] "others" false) = false ∧
    clean_text id id (clean_text id id ['o', 'k', ' ', 'g', 'o'] "others" false)
        "others" false
      = clean_text id id ['o', 'k', ' ', 'g', 'o'] "others" false :=
  ⟨by decide, by decide,
    clean_text_stable id id ['o', 'k', ' ', 'g', 'o'] "others" (by decide) (by decide)⟩

end YTNLP
